import Mathlib

/-!
Verification of the stream-parsing core of `src/App.jsx`.

The repository's core is the `startDiagnosis` read loop: it buffers decoded
text chunks, splits them into lines on `'\n'`, and folds each `data: `-prefixed
line into a list of turns (agent message blocks and status blocks) while
tracking the latest differential-diagnosis snapshot.  This file gives a shallow
embedding of that loop — text is modelled as `List Char`, each JavaScript
string operation and regular expression used by the source is translated into
an executable Lean function — and proves the spec's testable properties about
it.
-/

namespace SeqDiag

/-- Text is modelled as a list of Unicode scalar characters. -/
abbrev Str := List Char

/-- The set of characters matched by JavaScript's `\s` class and removed by
`String.prototype.trim` (WhiteSpace and LineTerminator productions). -/
def isJsWs (c : Char) : Bool :=
  c = ' ' || c = '\t' || c = '\n' || c.toNat = 0xB || c.toNat = 0xC || c = '\r' ||
  c.toNat = 0xA0 || c.toNat = 0x1680 ||
  (0x2000 ≤ c.toNat && c.toNat ≤ 0x200A) ||
  c.toNat = 0x2028 || c.toNat = 0x2029 || c.toNat = 0x202F ||
  c.toNat = 0x205F || c.toNat = 0x3000 || c.toNat = 0xFEFF

/-- JavaScript `String.prototype.trim`: drop whitespace from both ends. -/
def jsTrim (l : Str) : Str :=
  ((l.dropWhile isJsWs).reverse.dropWhile isJsWs).reverse

/-- JavaScript `hay.includes(needle)`: substring test. -/
def containsSub (hay needle : Str) : Bool :=
  match hay with
  | [] => needle.isEmpty
  | _ :: rest => needle.isPrefixOf hay || containsSub rest needle

/-- UTF-16 code units of one character (JavaScript strings are UTF-16). -/
def charUtf16 (c : Char) : List Nat :=
  if c.toNat < 0x10000 then [c.toNat]
  else [0xD800 + (c.toNat - 0x10000) / 0x400, 0xDC00 + (c.toNat - 0x10000) % 0x400]

/-- UTF-16 code units of a string. -/
def utf16Units (l : Str) : List Nat :=
  l.foldr (fun c acc => charUtf16 c ++ acc) []

/-- JavaScript `String.prototype.length` (UTF-16 code units). -/
def utf16Len (l : Str) : Nat :=
  (utf16Units l).length

/-- A character allowed in the body of an SGR escape sequence (`[0-9;]`). -/
def ansiBodyChar (c : Char) : Bool :=
  c.isDigit || c = ';'

/-- After an ESC character, try to match `\[[0-9;]*m` and return the remainder
of the string behind the escape sequence. -/
def tryAnsi (cs : Str) : Option Str :=
  match cs with
  | '[' :: r =>
    (match r.drop (r.takeWhile ansiBodyChar).length with
     | 'm' :: t => some t
     | _ => none)
  | _ => none

/-- Fuelled scanner deleting every match of `/\u001b\[[0-9;]*m/g`. -/
def cleanAnsiF : Nat → Str → Str
  | 0, l => l
  | _ + 1, [] => []
  | f + 1, c :: cs =>
    if c = '\x1b' then
      match tryAnsi cs with
      | some rest => cleanAnsiF f rest
      | none => c :: cleanAnsiF f cs
    else c :: cleanAnsiF f cs

/-- `str.replace(/\u001b\[[0-9;]*m/g, '')` from the source's `cleanAnsi`. -/
def cleanAnsi (l : Str) : Str :=
  cleanAnsiF l.length l

/-- `buffer.split('\n')` — split at every newline, keeping empty pieces. -/
def splitNl : Str → List Str
  | [] => [[]]
  | c :: cs => if c = '\n' then [] :: splitNl cs else (splitNl cs).modifyHead (c :: ·)

/-! ## String literals of the source -/

/-- The event-frame prefix checked by `trimmedLine.startsWith('data: ')`. -/
def dataPrefix : Str := ("data: ").toList

/-- First differential marker, `'� TOP DIFFERENTIAL DIAGNOSES'`; its first
character is U+FFFD REPLACEMENT CHARACTER, exactly as in the source. -/
def dxMarker1 : Str := ("� TOP DIFFERENTIAL DIAGNOSES").toList

/-- Second differential marker, `'📊 Differential Diagnosis Updated'`. -/
def dxMarker2 : Str := ("📊 Differential Diagnosis Updated").toList

/-- The literal head of the agent-header regex, `Agent Name:`. -/
def agentNameColon : Str := ("Agent Name:").toList

/-- The literal checked by `content.includes('Agent Name')` in the status test. -/
def agentNameSub : Str := ("Agent Name").toList

/-- The literal `"Probability: "` inside the differential regex. -/
def probLit : Str := ("Probability: ").toList

/-- Sentinel agent name used when content arrives with no active agent. -/
def sysOrchName : Str := ("System Orchestrator").toList

/-- Status text appended when the stream is aborted by the user. -/
def stoppedText : Str := ("🏁 Process stopped by user.").toList

/-- Prefix of the surfaced transport-error message. -/
def failPrefix : Str := ("Failed to connect to backend: ").toList

/-! ## Line classifier: differential-snapshot extraction

The source regex is `/(?:\d+\.\s+|- )([^:]+?)(?:\s+Probability: |:\s+)(\d+)%/g`,
matched with `content.matchAll`.  The functions below are a backtracking
matcher specialised to this pattern, following the JavaScript engine's
strategy: leftmost match wins, greedy pieces backtrack from longest, the lazy
group `([^:]+?)` grows from shortest. -/

/-- Match `(\d+)%` at the front of `v`; return the digit capture and rest. -/
def dxDigits (v : Str) : Option (Str × Str) :=
  let ds := v.takeWhile Char.isDigit
  if ds.isEmpty then none
  else match v.drop ds.length with
    | '%' :: rest => some (ds, rest)
    | _ => none

/-- Match `(?:\s+Probability: |:\s+)(\d+)%` at the front of `u`.  In the first
alternative `\s+` is effectively maximal because no whitespace character can
begin the literal `Probability: `; likewise in the second alternative because
no whitespace character is a digit. -/
def dxMiddle (u : Str) : Option (Str × Str) :=
  let ws := u.takeWhile isJsWs
  let alt1 :=
    if 0 < ws.length && probLit.isPrefixOf (u.drop ws.length) then
      dxDigits ((u.drop ws.length).drop probLit.length)
    else none
  match alt1 with
  | some r => some r
  | none =>
    match u with
    | ':' :: r =>
      let ws2 := r.takeWhile isJsWs
      if 0 < ws2.length then dxDigits (r.drop ws2.length) else none
    | _ => none

/-- The lazy group `([^:]+?)` followed by the middle and digit parts: having
already captured `acc` (nonempty, colon-free), try the continuation, otherwise
extend the capture by one character. -/
def dxGroup (acc : Str) : Str → Option (Str × Str × Str)
  | [] => (dxMiddle []).map (fun p => (acc, p.1, p.2))
  | c :: cs =>
    match dxMiddle (c :: cs) with
    | some (dig, rest') => some (acc, dig, rest')
    | none => if c = ':' then none else dxGroup (acc ++ [c]) cs

/-- Start the lazy group at `t` (it must take at least one colon-free char). -/
def dxStartGroup (t : Str) : Option (Str × Str × Str) :=
  match t with
  | [] => none
  | c :: cs => if c = ':' then none else dxGroup [c] cs

/-- Backtracking of the greedy `\s+` after `\d+\.`: try the group at offset
`k` into the whitespace run, decreasing to offset 1. -/
def dxAfterNum (rest : Str) : Nat → Option (Str × Str × Str)
  | 0 => none
  | k + 1 =>
    match dxStartGroup (rest.drop (k + 1)) with
    | some r => some r
    | none => dxAfterNum rest k

/-- Try the whole pattern anchored at the front of `s`; on success return
(label capture, digit capture, remainder after the match). -/
def dxMatchAt (s : Str) : Option (Str × Str × Str) :=
  match s with
  | [] => none
  | c :: cs =>
    if c.isDigit then
      let ds := s.takeWhile Char.isDigit
      match s.drop ds.length with
      | '.' :: r =>
        let ws := r.takeWhile isJsWs
        if ws.isEmpty then none else dxAfterNum r ws.length
      | _ => none
    else if c = '-' then
      match cs with
      | ' ' :: t => dxStartGroup t
      | _ => none
    else none

/-- Fuelled global scan: successive non-overlapping matches, resuming after
each match and advancing one character on failure. -/
def dxScanF : Nat → Str → List (Str × Str)
  | 0, _ => []
  | _ + 1, [] => []
  | f + 1, s@(_ :: cs) =>
    match dxMatchAt s with
    | some (lab, dig, rest) => (lab, dig) :: dxScanF f rest
    | none => dxScanF f cs

/-- `[...content.matchAll(dxRegex)]` projected to the two capture groups. -/
def dxMatchAll (c : Str) : List (Str × Str) :=
  dxScanF c.length c

/-- Marker test of source line 103: the line is recognised as a differential
snapshot line iff it contains one of the two literal marker strings. -/
def recognizesDx (c : Str) : Bool :=
  containsSub c dxMarker1 || containsSub c dxMarker2

/-- `matches.slice(0, 3).map(m => ({diagnosis: m[1].trim(), probability: m[2] + '%'}))`. -/
def topDx (c : Str) : List (Str × Str) :=
  ((dxMatchAll c).take 3).map (fun p => (jsTrim p.1, p.2 ++ ['%']))

/-! ## Line classifier: agent-header detection

Source line 122: `content.match(/Agent Name:\s*([a-zA-Z\.\- ]+)/)`. -/

/-- The character class `[a-zA-Z\.\- ]` of the agent-name capture group. -/
def inAgentClass (c : Char) : Bool :=
  c.isAlpha || c = '.' || c = '-' || c = ' '

/-- Try the capture group at offset `k` of `rest`: it must start with a class
character; on success the (greedy) capture is the maximal class run. -/
def agentTryAt (rest : Str) (k : Nat) : Option Str :=
  match rest.drop k with
  | [] => none
  | c :: cs => if inAgentClass c then some (c :: cs.takeWhile inAgentClass) else none

/-- Backtracking of the greedy `\s*`: try offsets `k, k-1, …, 0` in order. -/
def agentTryK (rest : Str) : Nat → Option Str
  | 0 => agentTryAt rest 0
  | k + 1 =>
    match agentTryAt rest (k + 1) with
    | some r => some r
    | none => agentTryK rest k

/-- Match `\s*([a-zA-Z\.\- ]+)` at the front of `rest` (the text following the
literal `Agent Name:`), returning the capture group. -/
def agentTail (rest : Str) : Option Str :=
  agentTryK rest (rest.takeWhile isJsWs).length

/-- Leftmost match of `/Agent Name:\s*([a-zA-Z\.\- ]+)/`, returning the raw
capture `m[1]`, or `none` if the line has no agent header. -/
def agentScan : Str → Option Str
  | [] => none
  | s@(_ :: cs) =>
    if agentNameColon.isPrefixOf s then
      match agentTail (s.drop agentNameColon.length) with
      | some cap => some cap
      | none => agentScan cs
    else agentScan cs

/-! ## Line classifier: status detection

Source line 140: `content.match(/^.{0,5}[🤔💰🩺🔬🧠🤝✅🏁⭐❌📊📈📉🏥🧬🧪]/)`.
The regex has no `u` flag, so it works on UTF-16 code units: the character
class is the set of individual code units of the listed glyphs (three BMP
characters plus the surrogate halves of the rest), and `.` matches any single
non-line-terminator unit. -/

/-- UTF-16 code units making up the status-emoji character class. -/
def statusClassUnits : List Nat :=
  [0x2705, 0x2B50, 0x274C,
   0xD83C, 0xD83D, 0xD83E,
   0xDD14, 0xDCB0, 0xDE7A, 0xDD2C, 0xDDE0, 0xDD1D, 0xDFC1,
   0xDCCA, 0xDCC8, 0xDCC9, 0xDFE5, 0xDDEC, 0xDDEA]

/-- UTF-16 units that `.` does not match (LineTerminator code points). -/
def isLineTermUnit (u : Nat) : Bool :=
  u = 0xA || u = 0xD || u = 0x2028 || u = 0x2029

/-- `^.{0,5}[class]` on a unit sequence: some unit at index `≤ 5` is in the
class and every unit before it is matched by `.`.  The fuel argument counts
the remaining admissible indices (starts at 6). -/
def statusHead : List Nat → Nat → Bool
  | _, 0 => false
  | [], _ + 1 => false
  | u :: rest, f + 1 =>
    if statusClassUnits.contains u then true
    else if isLineTermUnit u then false
    else statusHead rest f

/-- The whole status condition of source line 142:
`isStatus && content.length < 150 && !content.includes('Agent Name')`. -/
def statusTest (c : Str) : Bool :=
  statusHead (utf16Units c) 6 && utf16Len c < 150 && !containsSub c agentNameSub

/-! ## Line classifier: content cleanup -/

/-- The box-drawing character class `[╭╮╯╰─│]` of source line 163. -/
def isBoxChar (c : Char) : Bool :=
  c = '╭' || c = '╮' || c = '╯' || c = '╰' || c = '─' || c = '│'

/-- `content.replace(/[╭╮╯╰─│]/g, '')`. -/
def stripBox (l : Str) : Str :=
  l.filter (fun c => !isBoxChar c)

/-- `cleanContent.replace(/[\s\-_]/g, '')` — the border-only test's filler. -/
def fillerStrip (l : Str) : Str :=
  l.filter (fun c => !(isJsWs c || c = '-' || c = '_'))

/-! ## Data model

One entry of the `messages` array: either an agent block (`{id, agent,
content}`) or a status block (`{id, status}`).  The source's ids
(`Date.now() + Math.random()`, `'system-' + Date.now()`) are opaque fresh
values; they are modelled by a per-session counter.  Timestamps are pure
display data and are omitted. -/

inductive Msg : Type
  | agent (id : Nat) (name : Str) (content : Str)
  | status (id : Nat) (text : Str)
deriving DecidableEq

/-- The id of a message. -/
def Msg.mid : Msg → Nat
  | .agent i _ _ => i
  | .status i _ => i

/-- The differential snapshot `{items, full}` kept by `setDifferential`. -/
structure Dx : Type where
  items : List (Str × Str)
  full : Str
deriving DecidableEq

/-- The session state mutated by the read loop: the turn list, the latest
differential snapshot, and the loop locals `currentAgentName` /
`lastMessageId` plus the fresh-id counter. -/
structure SessionState : Type where
  messages : List Msg
  differential : Option Dx
  currentAgentName : Option Str
  lastMessageId : Option Nat
  nextId : Nat
deriving DecidableEq

/-- State at `startDiagnosis` entry: `setMessages([])`, `setDifferential(null)`,
`currentAgentName = null`, `lastMessageId = null`. -/
def initialSession : SessionState :=
  ⟨[], none, none, none, 0⟩

/-- JavaScript falsiness of `currentAgentName` (`null` or the empty string). -/
def jsFalsyName : Option Str → Bool
  | none => true
  | some x => x.isEmpty

/-! ## Turn accumulator -/

/-- The content update of source lines 175–181 applied to one message: split
the existing content on `'\n'`; unless the last line equals `cc`, append `cc`
(joined by `'\n'`, or alone when the content was empty). -/
def updateMsg (m : Msg) (cc : Str) : Msg :=
  match m with
  | .agent i n cont =>
    if (splitNl cont).getLast? = some cc then m
    else .agent i n (if cont.isEmpty then cc else cont ++ '\n' :: cc)
  | .status i t => .status i t

/-- `newMessages.findIndex(m => m.id === lastMessageId)` followed by the
in-place content update: the first message whose id is `tid` is updated, all
others are untouched; if no id matches, the list is unchanged. -/
def appendContent : List Msg → Nat → Str → List Msg
  | [], _, _ => []
  | m :: ms, tid, cc =>
    if m.mid = tid then updateMsg m cc :: ms
    else m :: appendContent ms tid cc

/-! ## Per-line processing -/

/-- The differential branch (source lines 102–119): if a marker phrase is
present and the pattern extracts at least one pair, overwrite the snapshot. -/
def applyDx (s : SessionState) (c : Str) : SessionState :=
  if recognizesDx c then
    if (dxMatchAll c).isEmpty then s
    else { s with differential := some ⟨topDx c, c⟩ }
  else s

/-- Source lines 151–161: when `currentAgentName` is falsy (null or empty),
synthesise a sentinel orchestrator turn before accumulating content. -/
def synthOrch (s : SessionState) : SessionState :=
  if jsFalsyName s.currentAgentName then
    { s with currentAgentName := some sysOrchName, lastMessageId := some s.nextId,
             messages := s.messages ++ [Msg.agent s.nextId sysOrchName []],
             nextId := s.nextId + 1 }
  else s

/-- Source lines 163–185 applied to the state after orchestrator synthesis:
strip box-drawing characters, skip pure border lines, trim and fold the
cleaned text into the message `lastMessageId` points at. -/
def contentTail (s2 : SessionState) (c : Str) : SessionState :=
  let clean := stripBox c
  if (fillerStrip clean).isEmpty then s2
  else
    let cc := jsTrim clean
    if cc.isEmpty then s2
    else
      match s2.lastMessageId with
      | none => s2
      | some tid => { s2 with messages := appendContent s2.messages tid cc }

/-- The content branch: orchestrator synthesis followed by accumulation. -/
def contentStep (s : SessionState) (c : Str) : SessionState :=
  contentTail (synthOrch s) c

/-- The agent / status / content branches (source lines 121–185).  The source
has no `continue` after the differential branch, so these always run on the
same line. -/
def processRest (s : SessionState) (c : Str) : SessionState :=
  match agentScan c with
  | some cap =>
    let name := jsTrim cap
    if s.currentAgentName = some name then s
    else { s with currentAgentName := some name, lastMessageId := some s.nextId,
                  messages := s.messages ++ [Msg.agent s.nextId name []],
                  nextId := s.nextId + 1 }
  | none =>
    if statusTest c then
      { s with messages := s.messages ++ [Msg.status s.nextId c],
               nextId := s.nextId + 1 }
    else contentStep s c

/-- Process the decoded content of one event frame. -/
def processContent (s : SessionState) (c : Str) : SessionState :=
  processRest (applyDx s c) c

/-- Gate of source lines 94–100: trim the raw line, require the `data: `
prefix, strip it, retrim, strip ANSI escapes, and skip if empty. -/
def extractContent (line : Str) : Option Str :=
  let t := jsTrim line
  if dataPrefix.isPrefixOf t then
    let c := cleanAnsi (jsTrim (t.drop dataPrefix.length))
    if c.isEmpty then none else some c
  else none

/-- Process one raw line from the split buffer. -/
def processLine (s : SessionState) (line : Str) : SessionState :=
  match extractContent line with
  | none => s
  | some c => processContent s c

/-- Process a list of complete lines in order. -/
def processLines (s : SessionState) (ls : List Str) : SessionState :=
  ls.foldl processLine s

/-! ## Stream driver -/

/-- Read-loop state: the session state plus the carry-over `buffer`. -/
abbrev StreamState := SessionState × Str

/-- Source lines 89–91 and 93–186: append the chunk to the buffer, split on
`'\n'`, keep the last piece as the new buffer and process all other pieces. -/
def feedChunk (st : StreamState) (chunk : Str) : StreamState :=
  let parts := splitNl (st.2 ++ chunk)
  (processLines st.1 parts.dropLast, parts.getLast?.getD [])

/-- Feed a sequence of chunks through the read loop. -/
def feedAll (st : StreamState) (chunks : List Str) : StreamState :=
  chunks.foldl feedChunk st

/-- Stream-driver state at loop entry. -/
def initialStream : StreamState :=
  (initialSession, [])

/-- Character-level restatement of the buffered loop: accumulate pending
characters and emit a line at each newline.  `feedChunk` is proved equal to
folding this step over the chunk's characters. -/
def driveChar (st : StreamState) (c : Char) : StreamState :=
  if c = '\n' then (processLine st.1 st.2, []) else (st.1, st.2 ++ [c])

/-- How the stream ends: normal completion, an abort raised by `cancel()`
(`err.name === 'AbortError'`), or any other transport error. -/
inductive TermEvent : Type
  | normal
  | aborted
  | failed (msg : Str)

/-- One whole streaming run (source lines 85–201): fold all chunks that were
read, then apply the `catch` handling of the terminating event.  Returns the
final session state and the surfaced error message, if any. -/
def runStream (chunks : List Str) (t : TermEvent) : SessionState × Option Str :=
  let s := (feedAll initialStream chunks).1
  match t with
  | .normal => (s, none)
  | .aborted =>
    ({ s with messages := s.messages ++ [Msg.status s.nextId stoppedText],
              nextId := s.nextId + 1 }, none)
  | .failed m => (s, some (failPrefix ++ m))

/-! ## Lemmas about line splitting -/

theorem splitNl_ne_nil (l : Str) : splitNl l ≠ [] := by
  induction l with
  | nil => simp [splitNl]
  | cons c cs ih =>
    by_cases hc : c = '\n'
    · simp [splitNl, hc]
    · obtain ⟨hd, tl, h⟩ := List.exists_cons_of_ne_nil ih
      simp [splitNl, hc, h]

theorem splitNl_single (z : Str) (hz : '\n' ∉ z) : splitNl z = [z] := by
  induction z with
  | nil => rfl
  | cons c cs ih =>
    have hc : c ≠ '\n' := fun h => hz (h ▸ List.mem_cons_self c cs)
    have hcs : '\n' ∉ cs := fun h => hz (List.mem_cons_of_mem c h)
    simp [splitNl, hc, ih hcs]

theorem splitNl_append_left (z y : Str) (hz : '\n' ∉ z) :
    splitNl (z ++ '\n' :: y) = z :: splitNl y := by
  induction z with
  | nil => simp [splitNl]
  | cons c cs ih =>
    have hc : c ≠ '\n' := fun h => hz (h ▸ List.mem_cons_self c cs)
    have hcs : '\n' ∉ cs := fun h => hz (List.mem_cons_of_mem c h)
    simp [splitNl, hc, ih hcs]

theorem splitNl_append_last (x y : Str) (hy : '\n' ∉ y) :
    splitNl (x ++ '\n' :: y) = splitNl x ++ [y] := by
  induction x with
  | nil => simp [splitNl, splitNl_single y hy]
  | cons c cs ih =>
    by_cases hc : c = '\n'
    · simp [splitNl, hc, ih]
    · rw [List.cons_append,
          show splitNl (c :: (cs ++ '\n' :: y)) =
            (splitNl (cs ++ '\n' :: y)).modifyHead (c :: ·) by simp [splitNl, hc],
          show splitNl (c :: cs) = (splitNl cs).modifyHead (c :: ·) by
            simp [splitNl, hc],
          ih]
      obtain ⟨hd, tl, h⟩ := List.exists_cons_of_ne_nil (splitNl_ne_nil cs)
      rw [h]
      rfl

/-! ## The read loop is a character-level fold

`feedChunk` (buffer, split, process all but the last piece, keep the last
piece) equals folding `driveChar` over the chunk's characters, provided the
carried buffer holds no newline — which is invariant. -/

theorem feedChunk_eq_drive (chunk : Str) :
    ∀ (s : SessionState) (buf : Str), '\n' ∉ buf →
      feedChunk (s, buf) chunk = List.foldl driveChar (s, buf) chunk := by
  induction chunk with
  | nil =>
    intro s buf hb
    simp [feedChunk, splitNl_single buf hb, processLines]
  | cons c cs ih =>
    intro s buf hb
    by_cases hc : c = '\n'
    · subst hc
      obtain ⟨hd, tl, h2⟩ := List.exists_cons_of_ne_nil (splitNl_ne_nil cs)
      have lhs :
          feedChunk (s, buf) ('\n' :: cs) = feedChunk (processLine s buf, []) cs := by
        show (processLines s (splitNl (buf ++ '\n' :: cs)).dropLast,
              (splitNl (buf ++ '\n' :: cs)).getLast?.getD []) =
             (processLines (processLine s buf) (splitNl ([] ++ cs)).dropLast,
              (splitNl ([] ++ cs)).getLast?.getD [])
        rw [splitNl_append_left buf cs hb, List.nil_append, h2,
            List.dropLast_cons₂, List.getLast?_cons_cons]
        rfl
      rw [lhs, ih (processLine s buf) [] (by simp)]
      simp [driveChar]
    · have harr : buf ++ c :: cs = (buf ++ [c]) ++ cs := by simp
      have hb' : '\n' ∉ buf ++ [c] := by
        simp only [List.mem_append, List.mem_singleton, not_or]
        exact ⟨hb, fun h => hc h.symm⟩
      have lhs : feedChunk (s, buf) (c :: cs) = feedChunk (s, buf ++ [c]) cs := by
        show (processLines s (splitNl (buf ++ c :: cs)).dropLast,
              (splitNl (buf ++ c :: cs)).getLast?.getD []) =
             (processLines s (splitNl ((buf ++ [c]) ++ cs)).dropLast,
              (splitNl ((buf ++ [c]) ++ cs)).getLast?.getD [])
        rw [harr]
      rw [lhs, ih s (buf ++ [c]) hb']
      simp [driveChar, hc]

theorem drive_buf_nlfree (cs : Str) :
    ∀ st : StreamState, '\n' ∉ st.2 → '\n' ∉ (List.foldl driveChar st cs).2 := by
  induction cs with
  | nil => intro st h; exact h
  | cons c rest ih =>
    intro st h
    by_cases hc : c = '\n'
    · exact ih _ (by simp [driveChar, hc])
    · refine ih _ ?_
      simp only [driveChar, if_neg hc, List.mem_append, List.mem_singleton, not_or]
      exact ⟨h, fun he => hc he.symm⟩

theorem feedAll_eq_drive (chunks : List Str) :
    ∀ st : StreamState, '\n' ∉ st.2 →
      feedAll st chunks = List.foldl driveChar st chunks.flatten := by
  induction chunks with
  | nil => intro st _; rfl
  | cons ch rest ih =>
    intro st hb
    have h1 : feedChunk st ch = List.foldl driveChar st ch := by
      have h0 := feedChunk_eq_drive ch st.1 st.2 hb
      simpa using h0
    have h2 : '\n' ∉ (List.foldl driveChar st ch).2 := drive_buf_nlfree ch st hb
    calc feedAll st (ch :: rest) = feedAll (feedChunk st ch) rest := rfl
    _ = List.foldl driveChar (feedChunk st ch) rest.flatten := ih _ (h1 ▸ h2)
    _ = List.foldl driveChar (List.foldl driveChar st ch) rest.flatten := by rw [h1]
    _ = List.foldl driveChar st (ch ++ rest.flatten) := (List.foldl_append ..).symm
    _ = List.foldl driveChar st (ch :: rest).flatten := by simp

/-! ## Branch characterisations of per-line processing -/

theorem processLine_of_extract {line c : Str} (h : extractContent line = some c)
    (s : SessionState) : processLine s line = processRest (applyDx s c) c := by
  simp [processLine, h, processContent]

theorem processLine_of_none {line : Str} (h : extractContent line = none)
    (s : SessionState) : processLine s line = s := by
  simp [processLine, h]

/-- The differential branch fires exactly under the marker test and a
nonempty match list, and then overwrites the snapshot. -/
theorem applyDx_pos {c : Str} (h1 : recognizesDx c = true)
    (h2 : dxMatchAll c ≠ []) (s : SessionState) :
    applyDx s c = { s with differential := some ⟨topDx c, c⟩ } := by
  simp [applyDx, h1, h2]

theorem applyDx_neg {c : Str}
    (h : recognizesDx c = false ∨ dxMatchAll c = []) (s : SessionState) :
    applyDx s c = s := by
  rcases h with h | h <;> simp [applyDx, h]

theorem applyDx_messages (s : SessionState) (c : Str) :
    (applyDx s c).messages = s.messages := by
  unfold applyDx; split <;> [skip; rfl]; split <;> rfl

theorem applyDx_currentAgentName (s : SessionState) (c : Str) :
    (applyDx s c).currentAgentName = s.currentAgentName := by
  unfold applyDx; split <;> [skip; rfl]; split <;> rfl

theorem applyDx_lastMessageId (s : SessionState) (c : Str) :
    (applyDx s c).lastMessageId = s.lastMessageId := by
  unfold applyDx; split <;> [skip; rfl]; split <;> rfl

theorem applyDx_nextId (s : SessionState) (c : Str) :
    (applyDx s c).nextId = s.nextId := by
  unfold applyDx; split <;> [skip; rfl]; split <;> rfl

theorem synthOrch_differential (s : SessionState) :
    (synthOrch s).differential = s.differential := by
  unfold synthOrch; split <;> rfl

theorem contentTail_differential (s2 : SessionState) (c : Str) :
    (contentTail s2 c).differential = s2.differential := by
  unfold contentTail
  dsimp only
  split_ifs
  · rfl
  · rfl
  · rcases hm : s2.lastMessageId with _ | tid <;> simp only [hm]

/-- The agent, status and content branches never touch the differential. -/
theorem processRest_differential (s : SessionState) (c : Str) :
    (processRest s c).differential = s.differential := by
  unfold processRest
  split
  · dsimp only; split <;> rfl
  · split
    · rfl
    · rw [contentStep, contentTail_differential, synthOrch_differential]

/-- The agent branch of `processRest`: a line matching the agent-header regex
either collapses (same current name) or appends one fresh empty agent turn. -/
theorem processRest_agent {c cap : Str} (h : agentScan c = some cap)
    (s : SessionState) :
    processRest s c =
      if s.currentAgentName = some (jsTrim cap) then s
      else { s with currentAgentName := some (jsTrim cap),
                    lastMessageId := some s.nextId,
                    messages := s.messages ++ [Msg.agent s.nextId (jsTrim cap) []],
                    nextId := s.nextId + 1 } := by
  simp [processRest, h]

/-- The status branch of `processRest`. -/
theorem processRest_status {c : Str} (hA : agentScan c = none)
    (hS : statusTest c = true) (s : SessionState) :
    processRest s c =
      { s with messages := s.messages ++ [Msg.status s.nextId c],
               nextId := s.nextId + 1 } := by
  simp [processRest, hA, hS]

/-- The content branch of `processRest`. -/
theorem processRest_content {c : Str} (hA : agentScan c = none)
    (hS : statusTest c = false) (s : SessionState) :
    processRest s c = contentStep s c := by
  simp [processRest, hA, hS]

/-! ## Substring and membership machinery -/

theorem isPrefixOf_of_append {a b s : Str} (h : (a ++ b).isPrefixOf s = true) :
    a.isPrefixOf s = true := by
  induction a generalizing s with
  | nil => simp [List.isPrefixOf]
  | cons x xs ih =>
    cases s with
    | nil => simp [List.isPrefixOf] at h
    | cons y ys =>
      simp only [List.cons_append, List.isPrefixOf, Bool.and_eq_true] at h ⊢
      exact ⟨h.1, ih h.2⟩

/-- If the ten-character literal `Agent Name` does not occur in `c`, the
agent-header regex (whose head literal is `Agent Name:`) cannot match. -/
theorem agentScan_of_no_sub {c : Str} (h : containsSub c agentNameSub = false) :
    agentScan c = none := by
  induction c with
  | nil => rfl
  | cons x xs ih =>
    rw [containsSub] at h
    simp only [Bool.or_eq_false_iff] at h
    have hp : agentNameColon.isPrefixOf (x :: xs) = false := by
      by_contra hne
      have h11 : agentNameColon.isPrefixOf (x :: xs) = true := by
        revert hne; cases agentNameColon.isPrefixOf (x :: xs) <;> simp
      have h10 : agentNameSub.isPrefixOf (x :: xs) = true := by
        have : agentNameSub ++ [':'] = agentNameColon := by decide
        exact isPrefixOf_of_append (this ▸ h11)
      rw [h10] at h
      exact absurd h.1 (by simp)
    rw [agentScan, hp]
    simp only [Bool.false_eq_true, if_false]
    exact ih h.2

/-- A status line never matches the agent-header regex: the status test
requires that `Agent Name` not occur in the line. -/
theorem agentScan_of_status {c : Str} (h : statusTest c = true) :
    agentScan c = none := by
  have : containsSub c agentNameSub = false := by
    have := h
    unfold statusTest at this
    simp only [Bool.and_eq_true, Bool.not_eq_true'] at this
    exact this.2
  exact agentScan_of_no_sub this

theorem mem_of_dropWhile {p : Char → Bool} {l : Str} {a : Char}
    (h : a ∈ l.dropWhile p) : a ∈ l :=
  (List.dropWhile_sublist p).mem h

theorem mem_of_jsTrim {l : Str} {a : Char} (h : a ∈ jsTrim l) : a ∈ l := by
  unfold jsTrim at h
  rw [List.mem_reverse] at h
  have h2 := mem_of_dropWhile h
  rw [List.mem_reverse] at h2
  exact mem_of_dropWhile h2

theorem tryAnsi_sub {cs t : Str} (h : tryAnsi cs = some t) {a : Char}
    (ha : a ∈ t) : a ∈ cs := by
  unfold tryAnsi at h
  split at h
  · rename_i r
    split at h
    · rename_i ys hd
      injection h with h'
      subst h'
      have hm : a ∈ r.drop (r.takeWhile ansiBodyChar).length :=
        hd ▸ List.mem_cons_of_mem _ ha
      exact List.mem_cons_of_mem _ (List.mem_of_mem_drop hm)
    · exact absurd h (by simp)
  · exact absurd h (by simp)

theorem mem_of_cleanAnsiF {f : Nat} {l : Str} {a : Char}
    (h : a ∈ cleanAnsiF f l) : a ∈ l := by
  induction f generalizing l with
  | zero => simpa [cleanAnsiF] using h
  | succ f ih =>
    cases l with
    | nil => simpa [cleanAnsiF] using h
    | cons c cs =>
      rw [cleanAnsiF] at h
      by_cases hc : c = '\x1b'
      · rw [if_pos hc] at h
        rcases ht : tryAnsi cs with _ | t <;> rw [ht] at h
        · rcases List.mem_cons.mp h with h | h
          · exact h ▸ List.mem_cons_self c cs
          · exact List.mem_cons_of_mem c (ih h)
        · exact List.mem_cons_of_mem c (tryAnsi_sub ht (ih h))
      · rw [if_neg hc] at h
        rcases List.mem_cons.mp h with h | h
        · exact h ▸ List.mem_cons_self c cs
        · exact List.mem_cons_of_mem c (ih h)

theorem mem_of_cleanAnsi {l : Str} {a : Char} (h : a ∈ cleanAnsi l) : a ∈ l :=
  mem_of_cleanAnsiF h

theorem mem_of_stripBox {l : Str} {a : Char} (h : a ∈ stripBox l) : a ∈ l :=
  (List.mem_filter.mp h).1

/-- The decoded content of a newline-free raw line is newline-free. -/
theorem extract_nlfree {line c : Str} (hl : '\n' ∉ line)
    (h : extractContent line = some c) : '\n' ∉ c := by
  intro hc
  unfold extractContent at h
  dsimp only at h
  split_ifs at h
  injection h with h'
  subst h'
  exact hl (mem_of_jsTrim (List.mem_of_mem_drop (mem_of_jsTrim
    (mem_of_cleanAnsi hc))))

/-! ## Adjacent-duplicate suppression: the content invariant -/

/-- Invariant on one message: an agent turn's content, split into lines,
never holds two equal consecutive lines; status turns carry no content. -/
def msgContentOk : Msg → Prop
  | .agent _ _ cont => (splitNl cont).Chain' (· ≠ ·)
  | .status _ _ => True

/-- Invariant on a session state: every message satisfies `msgContentOk`. -/
def stateOk (s : SessionState) : Prop :=
  ∀ m ∈ s.messages, msgContentOk m

theorem msgContentOk_empty (i : Nat) (n : Str) :
    msgContentOk (Msg.agent i n []) := by
  simp [msgContentOk, splitNl]

theorem updateMsg_ok {m : Msg} {cc : Str} (hm : msgContentOk m)
    (hcc : '\n' ∉ cc) : msgContentOk (updateMsg m cc) := by
  cases m with
  | status i t => exact trivial
  | agent i n cont =>
    unfold updateMsg
    dsimp only
    split_ifs with hla he
    · exact hm
    · show (splitNl cc).Chain' (· ≠ ·)
      rw [splitNl_single cc hcc]
      exact List.chain'_singleton cc
    · show (splitNl (cont ++ '\n' :: cc)).Chain' (· ≠ ·)
      rw [splitNl_append_last cont cc hcc, List.chain'_append]
      refine ⟨hm, List.chain'_singleton cc, ?_⟩
      intro x hx y hy
      simp only [List.head?_cons, Option.mem_def, Option.some.injEq] at hy
      subst hy
      intro hxy
      subst hxy
      exact hla (Option.mem_def.mp hx)

theorem appendContent_ok {msgs : List Msg} {cc : Str}
    (hok : ∀ m ∈ msgs, msgContentOk m) (hcc : '\n' ∉ cc) (tid : Nat) :
    ∀ m ∈ appendContent msgs tid cc, msgContentOk m := by
  induction msgs with
  | nil => intro m hm; exact absurd hm (by simp [appendContent])
  | cons x xs ih =>
    intro m hm
    rw [appendContent] at hm
    split_ifs at hm with hid
    · rcases List.mem_cons.mp hm with h | h
      · exact h ▸ updateMsg_ok (hok x (List.mem_cons_self x xs)) hcc
      · exact hok m (List.mem_cons_of_mem x h)
    · rcases List.mem_cons.mp hm with h | h
      · exact h ▸ hok x (List.mem_cons_self x xs)
      · exact ih (fun m hm => hok m (List.mem_cons_of_mem x hm)) m h

theorem synthOrch_ok {s : SessionState} (hs : stateOk s) :
    stateOk (synthOrch s) := by
  unfold synthOrch
  split_ifs
  · intro m hm
    rcases List.mem_append.mp hm with h | h
    · exact hs m h
    · rw [List.mem_singleton.mp h]
      exact msgContentOk_empty ..
  · exact hs

theorem contentTail_ok {s2 : SessionState} {c : Str} (hs : stateOk s2)
    (hc : '\n' ∉ c) : stateOk (contentTail s2 c) := by
  unfold contentTail
  dsimp only
  split_ifs
  · exact hs
  · exact hs
  · rcases hm : s2.lastMessageId with _ | tid
    · simpa only [hm] using hs
    · simp only [hm]
      intro m hmm
      refine appendContent_ok hs ?_ tid m hmm
      intro hnl
      exact hc (mem_of_stripBox (mem_of_jsTrim hnl))

theorem processRest_ok {s : SessionState} {c : Str} (hs : stateOk s)
    (hc : '\n' ∉ c) : stateOk (processRest s c) := by
  unfold processRest
  split
  · dsimp only
    split_ifs
    · exact hs
    · intro m hm
      rcases List.mem_append.mp hm with h | h
      · exact hs m h
      · rw [List.mem_singleton.mp h]
        exact msgContentOk_empty ..
  · split_ifs
    · intro m hm
      rcases List.mem_append.mp hm with h | h
      · exact hs m h
      · rw [List.mem_singleton.mp h]
        exact trivial
    · exact contentTail_ok (synthOrch_ok hs) hc

theorem applyDx_ok {s : SessionState} (hs : stateOk s) (c : Str) :
    stateOk (applyDx s c) := by
  intro m hm
  rw [applyDx_messages] at hm
  exact hs m hm

theorem processLine_ok {s : SessionState} {line : Str} (hl : '\n' ∉ line)
    (hs : stateOk s) : stateOk (processLine s line) := by
  rcases he : extractContent line with _ | c
  · rw [processLine_of_none he]; exact hs
  · rw [processLine_of_extract he]
    exact processRest_ok (applyDx_ok hs c) (extract_nlfree hl he)

theorem stateOk_drive (cs : Str) :
    ∀ st : StreamState, stateOk st.1 → '\n' ∉ st.2 →
      stateOk (List.foldl driveChar st cs).1 := by
  induction cs with
  | nil => intro st h _; exact h
  | cons c rest ih =>
    intro st hs hb
    by_cases hc : c = '\n'
    · have : driveChar st c = (processLine st.1 st.2, []) := by simp [driveChar, hc]
      rw [List.foldl_cons, this]
      exact ih _ (processLine_ok hb hs) (by simp)
    · have : driveChar st c = (st.1, st.2 ++ [c]) := by simp [driveChar, hc]
      rw [List.foldl_cons, this]
      refine ih _ hs ?_
      simp only [List.mem_append, List.mem_singleton, not_or]
      exact ⟨hb, fun h => hc h.symm⟩

/-- Every state reached by feeding chunks from the initial state satisfies
the content invariant. -/
theorem stateOk_feedAll (chunks : List Str) :
    stateOk (feedAll initialStream chunks).1 := by
  rw [feedAll_eq_drive chunks initialStream (by simp [initialStream])]
  exact stateOk_drive _ initialStream (by intro m hm; simp [initialStream, initialSession] at hm)
    (by simp [initialStream])

/-! ## Content only grows by appending -/

/-- One step of growth on one message: the identity and kind are preserved,
an agent turn's content is extended only by appending a suffix. -/
def growsTo : Msg → Msg → Prop
  | .agent i n c, .agent i' n' c' => i = i' ∧ n = n' ∧ ∃ t, c' = c ++ t
  | .status i t, .status i' t' => i = i' ∧ t = t'
  | _, _ => False

theorem growsTo_refl (m : Msg) : growsTo m m := by
  cases m with
  | agent i n c => exact ⟨rfl, rfl, [], by simp⟩
  | status i t => exact ⟨rfl, rfl⟩

theorem updateMsg_grows (m : Msg) (cc : Str) : growsTo m (updateMsg m cc) := by
  cases m with
  | status i t => exact ⟨rfl, rfl⟩
  | agent i n cont =>
    unfold updateMsg
    dsimp only
    split_ifs with hla he
    · exact growsTo_refl _
    · have h0 : cont = [] := List.isEmpty_iff.mp he
      exact ⟨rfl, rfl, cc, by rw [h0]; rfl⟩
    · exact ⟨rfl, rfl, '\n' :: cc, rfl⟩

theorem appendContent_forall₂ (msgs : List Msg) (tid : Nat) (cc : Str) :
    List.Forall₂ growsTo msgs (appendContent msgs tid cc) := by
  induction msgs with
  | nil => exact List.Forall₂.nil
  | cons x xs ih =>
    rw [appendContent]
    split_ifs with hid
    · exact List.Forall₂.cons (updateMsg_grows x cc)
        (List.forall₂_same.mpr fun m _ => growsTo_refl m)
    · exact List.Forall₂.cons (growsTo_refl x) ih

/-- The turn list evolves only by in-place growth of existing turns plus
appended new turns. -/
def listGrows (old new : List Msg) : Prop :=
  ∃ l1 l2, new = l1 ++ l2 ∧ List.Forall₂ growsTo old l1

theorem listGrows_refl (l : List Msg) : listGrows l l :=
  ⟨l, [], by simp, List.forall₂_same.mpr fun m _ => growsTo_refl m⟩

theorem listGrows_append (l add : List Msg) : listGrows l (l ++ add) :=
  ⟨l, add, rfl, List.forall₂_same.mpr fun m _ => growsTo_refl m⟩

theorem appendContent_split (xs ys : List Msg) (tid : Nat) (cc : Str) :
    appendContent (xs ++ ys) tid cc = appendContent xs tid cc ++ ys ∨
    appendContent (xs ++ ys) tid cc = xs ++ appendContent ys tid cc := by
  induction xs with
  | nil => right; rfl
  | cons x xs ih =>
    rw [List.cons_append, appendContent, appendContent]
    split_ifs with hid
    · left; simp
    · rcases ih with h | h
      · left; rw [List.cons_append, h]
      · right; rw [List.cons_append, h]

theorem contentTail_grows (s2 : SessionState) (c : Str) :
    listGrows s2.messages (contentTail s2 c).messages := by
  unfold contentTail
  dsimp only
  split_ifs
  · exact listGrows_refl _
  · exact listGrows_refl _
  · rcases hm : s2.lastMessageId with _ | tid
    · simp only [hm]; exact listGrows_refl _
    · simp only [hm]
      exact ⟨appendContent s2.messages tid (jsTrim (stripBox c)), [], by simp,
        appendContent_forall₂ ..⟩

theorem synthOrch_messages_cases (s : SessionState) :
    (synthOrch s).messages = s.messages ∨
    ∃ nm, (synthOrch s).messages = s.messages ++ [nm] := by
  unfold synthOrch
  split_ifs
  · right; exact ⟨_, rfl⟩
  · left; rfl

theorem contentTail_messages_cases (s2 : SessionState) (c : Str) :
    (contentTail s2 c).messages = s2.messages ∨
    ∃ tid, (contentTail s2 c).messages =
      appendContent s2.messages tid (jsTrim (stripBox c)) := by
  unfold contentTail
  dsimp only
  split_ifs
  · left; rfl
  · left; rfl
  · rcases hm : s2.lastMessageId with _ | tid
    · left; rfl
    · right; exact ⟨tid, rfl⟩

theorem processLine_grows (s : SessionState) (line : Str) :
    listGrows s.messages (processLine s line).messages := by
  rcases he : extractContent line with _ | c
  · rw [processLine_of_none he]; exact listGrows_refl _
  · rw [processLine_of_extract he]
    have hmsg : (applyDx s c).messages = s.messages := applyDx_messages s c
    unfold processRest
    split
    · dsimp only
      split_ifs
      · rw [hmsg]; exact listGrows_refl _
      · rw [hmsg]; exact listGrows_append ..
    · split_ifs
      · rw [hmsg]; exact listGrows_append ..
      · unfold contentStep
        rcases contentTail_messages_cases (synthOrch (applyDx s c)) c with h | ⟨tid, h⟩ <;>
          rcases synthOrch_messages_cases (applyDx s c) with h2 | ⟨nm, h2⟩
        · rw [h, h2, hmsg]; exact listGrows_refl _
        · rw [h, h2, hmsg]; exact listGrows_append ..
        · rw [h, h2, hmsg]
          exact ⟨appendContent s.messages tid (jsTrim (stripBox c)), [], by simp,
            appendContent_forall₂ ..⟩
        · rw [h, h2, hmsg]
          rcases appendContent_split s.messages [nm] tid (jsTrim (stripBox c)) with h3 | h3
          · rw [h3]
            exact ⟨appendContent s.messages tid (jsTrim (stripBox c)), [nm], rfl,
              appendContent_forall₂ ..⟩
          · rw [h3]
            exact ⟨s.messages, appendContent [nm] tid (jsTrim (stripBox c)), rfl,
              List.forall₂_same.mpr fun m _ => growsTo_refl m⟩

/-! ## Line-level characterisations used by the claims -/

/-- A recognised differential line (marker plus at least one extracted pair)
always overwrites the snapshot with the parse of that line, whatever the
previous state. -/
theorem processLine_differential_pos {line c : Str}
    (he : extractContent line = some c) (h1 : recognizesDx c = true)
    (h2 : dxMatchAll c ≠ []) (s : SessionState) :
    (processLine s line).differential = some ⟨topDx c, c⟩ := by
  rw [processLine_of_extract he, processRest_differential, applyDx_pos h1 h2]

/-- A line without either marker never changes the snapshot. -/
theorem processLine_differential_neg {line : Str} (s : SessionState)
    (h : ∀ c, extractContent line = some c → recognizesDx c = false) :
    (processLine s line).differential = s.differential := by
  rcases he : extractContent line with _ | c
  · rw [processLine_of_none he]
  · rw [processLine_of_extract he, processRest_differential,
        applyDx_neg (Or.inl (h c he))]

theorem processLine_agent_messages {line c cap : Str}
    (he : extractContent line = some c) (ha : agentScan c = some cap)
    (s : SessionState) :
    (processLine s line).messages =
      (if s.currentAgentName = some (jsTrim cap) then s.messages
       else s.messages ++ [Msg.agent s.nextId (jsTrim cap) []]) := by
  rw [processLine_of_extract he, processRest_agent ha]
  by_cases h : s.currentAgentName = some (jsTrim cap)
  · rw [if_pos (by rw [applyDx_currentAgentName]; exact h), if_pos h, applyDx_messages]
  · rw [if_neg (by rw [applyDx_currentAgentName]; exact h), if_neg h]
    dsimp only
    rw [applyDx_messages, applyDx_nextId]

theorem processLine_agent_current {line c cap : Str}
    (he : extractContent line = some c) (ha : agentScan c = some cap)
    (s : SessionState) :
    (processLine s line).currentAgentName = some (jsTrim cap) := by
  rw [processLine_of_extract he, processRest_agent ha]
  by_cases h : (applyDx s c).currentAgentName = some (jsTrim cap)
  · rw [if_pos h, applyDx_currentAgentName] at *
    exact h
  · rw [if_neg h]

/-- A status line (status regex hit, short, no `Agent Name`) appends exactly
one status turn; only the differential may additionally change. -/
theorem processLine_status {line c : Str} (he : extractContent line = some c)
    (hs : statusTest c = true) (s : SessionState) :
    processLine s line =
      { s with differential := (applyDx s c).differential,
               messages := s.messages ++ [Msg.status s.nextId c],
               nextId := s.nextId + 1 } := by
  rw [processLine_of_extract he, processRest_status (agentScan_of_status hs) hs]
  simp only [applyDx_messages, applyDx_nextId, applyDx_currentAgentName,
    applyDx_lastMessageId]

/-- When the border-only test fires, the content branch changes nothing
beyond the orchestrator synthesis. -/
theorem contentTail_skip {c : Str}
    (h : (fillerStrip (stripBox c)).isEmpty = true) (s2 : SessionState) :
    contentTail s2 c = s2 := by
  unfold contentTail
  dsimp only
  rw [if_pos h]

/-! ## Lines made only of box-drawing characters -/

theorem isInfix_of_containsSub {c n : Str} (h : containsSub c n = true) : n <:+: c := by
  induction c with
  | nil =>
    rw [containsSub] at h
    rw [List.isEmpty_iff.mp h]
  | cons x xs ih =>
    rw [containsSub, Bool.or_eq_true] at h
    rcases h with h | h
    · exact (List.isPrefixOf_iff_prefix.mp h).isInfix
    · exact List.infix_cons (ih h)

theorem statusHead_false {units : List Nat}
    (h : ∀ u ∈ units, statusClassUnits.contains u = false) :
    ∀ f, statusHead units f = false := by
  induction units with
  | nil => intro f; cases f <;> rfl
  | cons u rest ih =>
    intro f
    cases f with
    | zero => rfl
    | succ f =>
      rw [statusHead, h u (List.mem_cons_self u rest)]
      simp only [Bool.false_eq_true, if_false]
      split_ifs
      · rfl
      · exact ih (fun v hv => h v (List.mem_cons_of_mem u hv)) f

theorem mem_utf16Units {c : Str} {u : Nat} (h : u ∈ utf16Units c) :
    ∃ x ∈ c, u ∈ charUtf16 x := by
  induction c with
  | nil => exact absurd h (by simp [utf16Units])
  | cons x xs ih =>
    rw [utf16Units, List.foldr_cons] at h
    rcases List.mem_append.mp h with h | h
    · exact ⟨x, List.mem_cons_self x xs, h⟩
    · obtain ⟨y, hy, hu⟩ := ih h
      exact ⟨y, List.mem_cons_of_mem x hy, hu⟩

/-- No box-drawing character contributes a status-class UTF-16 unit. -/
theorem charUtf16_bmp {x : Char} (h : x.toNat < 0x10000) :
    charUtf16 x = [x.toNat] := by
  unfold charUtf16
  rw [if_pos h]

theorem boxChar_units {x : Char} (hx : isBoxChar x = true) {u : Nat}
    (hu : u ∈ charUtf16 x) : statusClassUnits.contains u = false := by
  have hor : x = '╭' ∨ x = '╮' ∨ x = '╯' ∨ x = '╰' ∨ x = '─' ∨ x = '│' := by
    revert hx
    unfold isBoxChar
    simp only [Bool.or_eq_true, decide_eq_true_eq]
    tauto
  rcases hor with h | h | h | h | h | h <;> subst h <;>
    rw [charUtf16_bmp (by decide)] at hu <;>
    · have hu' := List.mem_singleton.mp hu
      subst hu'
      decide

/-- A line whose decoded content is made only of box-drawing characters
produces exactly the orchestrator synthesis: no content is appended, no turn
other than the possible sentinel turn is created, and nothing else changes. -/
theorem processLine_box {line c : Str} (he : extractContent line = some c)
    (hbox : ∀ x ∈ c, isBoxChar x = true) (s : SessionState) :
    processLine s line = synthOrch s := by
  have hb : ∀ lit : Str, (∃ y ∈ lit, isBoxChar y = false) →
      containsSub c lit = false := by
    intro lit ⟨y, hy, hyb⟩
    by_contra h
    have h' : containsSub c lit = true := by
      revert h; cases containsSub c lit <;> simp
    have : y ∈ c := (isInfix_of_containsSub h').subset hy
    rw [hbox y this] at hyb
    exact absurd hyb (by simp)
  have hrec : recognizesDx c = false := by
    unfold recognizesDx
    rw [hb dxMarker1 ⟨'T', by decide, by decide⟩,
        hb dxMarker2 ⟨'D', by decide, by decide⟩]
    rfl
  have hagent : agentScan c = none :=
    agentScan_of_no_sub (hb agentNameSub ⟨'A', by decide, by decide⟩)
  have hstatus : statusTest c = false := by
    unfold statusTest
    rw [statusHead_false ?_ 6]
    · rfl
    · intro u hu
      obtain ⟨x, hx, hxu⟩ := mem_utf16Units hu
      exact boxChar_units (hbox x hx) hxu
  have hstrip : stripBox c = [] := by
    refine List.filter_eq_nil.mpr ?_
    intro a ha
    rw [hbox a ha]
    simp
  rw [processLine_of_extract he, applyDx_neg (Or.inl hrec),
      processRest_content hagent hstatus]
  unfold contentStep
  exact contentTail_skip (by rw [hstrip]; rfl) _

/-! ## Concrete inputs used by witnesses and counterexamples -/

/-- The spec's example differential line. -/
def c7Line : Str := ("data: 📊 Differential Diagnosis Updated: - Lupus: 42%").toList

/-- Decoded content of `c7Line`. -/
def c7Content : Str := ("📊 Differential Diagnosis Updated: - Lupus: 42%").toList

/-- Expected extracted diagnosis label. -/
def lupusLit : Str := ("Lupus").toList

/-- Expected formatted probability. -/
def pct42 : Str := ("42%").toList

/-- A second differential line with a different item set. -/
def c6Line : Str := ("data: 📊 Differential Diagnosis Updated: - Flu: 90%").toList

/-- Decoded content of `c6Line`. -/
def c6Content : Str := ("📊 Differential Diagnosis Updated: - Flu: 90%").toList

/-- The bare phrase of claim C10, with no emoji prefix. -/
def topPhrase : Str := ("TOP DIFFERENTIAL DIAGNOSES").toList

/-- A line holding the TOP phrase prefixed by 📊 instead of U+FFFD. -/
def c10Line : Str := ("data: 📊 TOP DIFFERENTIAL DIAGNOSES: - Lupus: 42%").toList

/-- Decoded content of `c10Line`. -/
def c10Content : Str := ("📊 TOP DIFFERENTIAL DIAGNOSES: - Lupus: 42%").toList

/-- The spec's pure box-drawing example line. -/
def boxLine : Str := ("data: ╰──────╯").toList

/-- Decoded content of `boxLine`. -/
def boxContent : Str := ("╰──────╯").toList

/-- The spec's example agent-header line. -/
def c5Line : Str := ("data: ╭── Agent Name: Dr. House ──╮").toList

/-- Decoded content of `c5Line`. -/
def c5Content : Str := ("╭── Agent Name: Dr. House ──╮").toList

/-- Raw capture group of the agent regex on `c5Content`. -/
def c5Cap : Str := ("Dr. House ").toList

/-- The spec's example status line. -/
def c9Line : Str := ("data: 🤔 Gathering history...").toList

/-- Decoded content of `c9Line`. -/
def c9Content : Str := ("🤔 Gathering history...").toList

/-- One-character content used in the duplicate-suppression witness. -/
def xLit : Str := ("x").toList

/-- A session state with a non-falsy current agent, for witnesses. -/
def c3StateA : SessionState :=
  ⟨[], none, some (("Dr").toList), none, 5⟩

/-- The spec's one-chunk example feed. -/
def c1ChunksA : List Str := [("data: A\ndata: B\n").toList]

/-- The same text split mid-line across two chunks. -/
def c1ChunksB : List Str := [("data: A\nda").toList, ("ta: B\n").toList]

/-! ## The claims -/

/-- C1: Chunk-boundary invariance — for every input text and every two ways
of splitting that text into chunks, feeding either chunk sequence through the
stream loop produces identical final turn lists and identical differential
snapshots. -/
theorem claim1_chunk_invariance :
    ∀ cs1 cs2 : List Str, cs1.flatten = cs2.flatten →
      (feedAll initialStream cs1).1.messages =
        (feedAll initialStream cs2).1.messages ∧
      (feedAll initialStream cs1).1.differential =
        (feedAll initialStream cs2).1.differential := by
  intro cs1 cs2 h
  rw [feedAll_eq_drive cs1 initialStream (by simp [initialStream]),
      feedAll_eq_drive cs2 initialStream (by simp [initialStream]), h]
  exact ⟨rfl, rfl⟩

/-- Witness for C1: `"data: A\ndata: B\n"` fed whole or split mid-line. -/
theorem claim1_chunk_invariance_witness :
    c1ChunksA.flatten = c1ChunksB.flatten ∧
    ((feedAll initialStream c1ChunksA).1.messages =
       (feedAll initialStream c1ChunksB).1.messages ∧
     (feedAll initialStream c1ChunksA).1.differential =
       (feedAll initialStream c1ChunksB).1.differential) :=
  ⟨by decide, claim1_chunk_invariance c1ChunksA c1ChunksB (by decide)⟩

/-- C2 counterexample: the spec's own differential line is not terminal — it
replaces the snapshot AND appends a StatusTurn (the source has no `continue`
after the differential branch, and 📊 is in the status-emoji class). -/
theorem claim2_counterexample :
    recognizesDx c7Content = true ∧ dxMatchAll c7Content ≠ [] ∧
    extractContent c7Line = some c7Content ∧
    (processLine initialSession c7Line).differential =
      some ⟨[(lupusLit, pct42)], c7Content⟩ ∧
    (processLine initialSession c7Line).messages =
      [Msg.status 0 c7Content] := by
  exact ⟨by decide, by decide, by decide, by decide, by decide⟩

/-- C2 amended: a recognised differential line replaces the snapshot but then
falls through to agent/status/content handling of the same line; in
particular, when it also passes the status test it appends a StatusTurn. -/
theorem claim2_amended_not_terminal :
    ∀ (s : SessionState) (line c : Str), extractContent line = some c →
      recognizesDx c = true → dxMatchAll c ≠ [] → statusTest c = true →
      processLine s line =
        { s with differential := some ⟨topDx c, c⟩,
                 messages := s.messages ++ [Msg.status s.nextId c],
                 nextId := s.nextId + 1 } := by
  intro s line c he h1 h2 hs
  rw [processLine_status he hs, applyDx_pos h1 h2]

/-- Witness for the amended C2 at the concrete differential line. -/
theorem claim2_amended_witness :
    processLine initialSession c7Line =
      { initialSession with
          differential := some ⟨topDx c7Content, c7Content⟩,
          messages := initialSession.messages ++
            [Msg.status initialSession.nextId c7Content],
          nextId := initialSession.nextId + 1 } :=
  claim2_amended_not_terminal initialSession c7Line c7Content
    (by decide) (by decide) (by decide) (by decide)

/-- C3 counterexample: from the initial state (no current agent), the pure
box-drawing line does create a new turn — an empty sentinel orchestrator
AgentTurn — because synthesis happens before the border-only test. -/
theorem claim3_counterexample :
    (∀ x ∈ boxContent, isBoxChar x = true) ∧
    extractContent boxLine = some boxContent ∧
    initialSession.messages = [] ∧
    (processLine initialSession boxLine).messages =
      [Msg.agent 0 sysOrchName []] := by
  exact ⟨by decide, by decide, by decide, by decide⟩

/-- C3 amended: a line whose decoded content is purely box-drawing characters
never mutates any content and appends no turn when the current agent name is
non-falsy; when it is falsy (no current agent), processing appends exactly one
empty sentinel orchestrator AgentTurn and nothing else. -/
theorem claim3_amended_box_line :
    ∀ (s : SessionState) (line c : Str), extractContent line = some c →
      (∀ x ∈ c, isBoxChar x = true) →
      ((jsFalsyName s.currentAgentName = false → processLine s line = s) ∧
       (jsFalsyName s.currentAgentName = true →
         processLine s line =
           { s with currentAgentName := some sysOrchName,
                    lastMessageId := some s.nextId,
                    messages := s.messages ++ [Msg.agent s.nextId sysOrchName []],
                    nextId := s.nextId + 1 })) := by
  intro s line c he hbox
  rw [processLine_box he hbox]
  constructor
  · intro h
    simp [synthOrch, h]
  · intro h
    simp [synthOrch, h]

/-- Witness for the amended C3: with a current agent the box line is a no-op. -/
theorem claim3_amended_box_line_witness :
    processLine c3StateA boxLine = c3StateA :=
  (claim3_amended_box_line c3StateA boxLine boxContent (by decide) (by decide)).1
    (by decide)

/-- C4: Adjacent-duplicate suppression — every reachable agent turn's content
has no two equal consecutive lines; appending a line equal to the turn's last
line is a no-op; a processing step only grows message contents by appending
(and may append new turns at the end). -/
theorem claim4_dup_suppression :
    ∀ chunks : List Str,
      (∀ m ∈ (feedAll initialStream chunks).1.messages, msgContentOk m) ∧
      (∀ (i : Nat) (n cont cc : Str), (splitNl cont).getLast? = some cc →
        updateMsg (Msg.agent i n cont) cc = Msg.agent i n cont) ∧
      (∀ (s : SessionState) (line : Str),
        listGrows s.messages (processLine s line).messages) := by
  intro chunks
  refine ⟨stateOk_feedAll chunks, ?_, processLine_grows⟩
  intro i n cont cc h
  unfold updateMsg
  dsimp only
  rw [if_pos h]

/-- Witness for C4: appending the turn's own last line changes nothing. -/
theorem claim4_dup_suppression_witness :
    updateMsg (Msg.agent 0 sysOrchName xLit) xLit =
      Msg.agent 0 sysOrchName xLit :=
  (claim4_dup_suppression []).2.1 0 sysOrchName xLit xLit (by decide)

/-- C5: Boundary collapse — processing two consecutive agent-header lines
naming the same agent leaves the turn list of the first unchanged (the second
header is a no-op); a single header appends a new empty AgentTurn exactly when
the named agent differs from the current one, and always makes it current. -/
theorem claim5_boundary_collapse :
    ∀ (s : SessionState) (l1 l2 c1 c2 cap1 cap2 : Str),
      extractContent l1 = some c1 → agentScan c1 = some cap1 →
      extractContent l2 = some c2 → agentScan c2 = some cap2 →
      jsTrim cap1 = jsTrim cap2 →
      ((processLine (processLine s l1) l2).messages =
         (processLine s l1).messages ∧
       (processLine s l1).messages =
         (if s.currentAgentName = some (jsTrim cap1) then s.messages
          else s.messages ++ [Msg.agent s.nextId (jsTrim cap1) []]) ∧
       (processLine s l1).currentAgentName = some (jsTrim cap1)) := by
  intro s l1 l2 c1 c2 cap1 cap2 he1 ha1 he2 ha2 hnm
  have hcur : (processLine s l1).currentAgentName = some (jsTrim cap2) := by
    rw [processLine_agent_current he1 ha1 s, hnm]
  refine ⟨?_, processLine_agent_messages he1 ha1 s,
    processLine_agent_current he1 ha1 s⟩
  rw [processLine_agent_messages he2 ha2 (processLine s l1), if_pos hcur]

/-- Witness for C5 at the spec's example header. -/
theorem claim5_boundary_collapse_witness :
    (processLine (processLine initialSession c5Line) c5Line).messages =
      (processLine initialSession c5Line).messages ∧
    (processLine initialSession c5Line).messages =
      (if initialSession.currentAgentName = some (jsTrim c5Cap) then
        initialSession.messages
       else initialSession.messages ++
         [Msg.agent initialSession.nextId (jsTrim c5Cap) []]) ∧
    (processLine initialSession c5Line).currentAgentName =
      some (jsTrim c5Cap) :=
  claim5_boundary_collapse initialSession c5Line c5Line c5Content c5Content
    c5Cap c5Cap (by decide) (by decide) (by decide) (by decide) rfl

/-- C6: Differential replace-not-merge — after two recognised differential
lines the snapshot equals exactly the parse of the second. -/
theorem claim6_replace_not_merge :
    ∀ (s : SessionState) (l1 l2 c1 c2 : Str),
      extractContent l1 = some c1 → recognizesDx c1 = true →
      dxMatchAll c1 ≠ [] →
      extractContent l2 = some c2 → recognizesDx c2 = true →
      dxMatchAll c2 ≠ [] →
      (processLine (processLine s l1) l2).differential =
        some ⟨topDx c2, c2⟩ := by
  intro s l1 l2 c1 c2 _ _ _ he2 h1 h2
  exact processLine_differential_pos he2 h1 h2 _

/-- Witness for C6 with two differential lines carrying different items. -/
theorem claim6_replace_not_merge_witness :
    (processLine (processLine initialSession c7Line) c6Line).differential =
      some ⟨topDx c6Content, c6Content⟩ :=
  claim6_replace_not_merge initialSession c7Line c6Line c7Content c6Content
    (by decide) (by decide) (by decide) (by decide) (by decide) (by decide)

/-- C7: Differential extraction postcondition — the snapshot's items are the
first at most 3 matched (label, percentage) pairs in left-to-right order, the
label trimmed and the probability the matched digits followed by `%`; the
example line yields exactly one item (Lupus, 42%). -/
theorem claim7_extraction :
    (∀ (s : SessionState) (line c : Str), extractContent line = some c →
      recognizesDx c = true → dxMatchAll c ≠ [] →
      (processLine s line).differential =
        some ⟨((dxMatchAll c).take 3).map
          (fun p => (jsTrim p.1, p.2 ++ ['%'])), c⟩) ∧
    (processLine initialSession c7Line).differential =
      some ⟨[(lupusLit, pct42)], c7Content⟩ := by
  constructor
  · intro s line c he h1 h2
    exact processLine_differential_pos he h1 h2 s
  · decide

/-- Witness for C7's universal part at the example line. -/
theorem claim7_extraction_witness :
    (processLine initialSession c7Line).differential =
      some ⟨((dxMatchAll c7Content).take 3).map
        (fun p => (jsTrim p.1, p.2 ++ ['%'])), c7Content⟩ :=
  claim7_extraction.1 initialSession c7Line c7Content
    (by decide) (by decide) (by decide)

/-- C8: Cancellation handling — aborting appends exactly one StatusTurn with
the stopped-by-user marker and surfaces no error, while a transport error
surfaces an error message and appends no turn. -/
theorem claim8_cancellation :
    ∀ (chunks : List Str) (m : Str),
      (runStream chunks TermEvent.aborted).1.messages =
        (feedAll initialStream chunks).1.messages ++
          [Msg.status (feedAll initialStream chunks).1.nextId stoppedText] ∧
      (runStream chunks TermEvent.aborted).2 = none ∧
      (runStream chunks (TermEvent.failed m)).1.messages =
        (feedAll initialStream chunks).1.messages ∧
      (runStream chunks (TermEvent.failed m)).2 = some (failPrefix ++ m) := by
  intro chunks m
  exact ⟨rfl, rfl, rfl, rfl⟩

/-- C9: status lines are never deduplicated — the same status line processed
twice appends two distinct StatusTurns. -/
theorem claim9_status_no_dedup :
    ∀ (s : SessionState) (line c : Str), extractContent line = some c →
      statusTest c = true →
      (processLine (processLine s line) line).messages =
        s.messages ++ [Msg.status s.nextId c, Msg.status (s.nextId + 1) c] := by
  intro s line c he hs
  rw [processLine_status he hs (processLine s line), processLine_status he hs s]
  simp

/-- Witness for C9 at the example status line. -/
theorem claim9_status_no_dedup_witness :
    (processLine (processLine initialSession c9Line) c9Line).messages =
      initialSession.messages ++
        [Msg.status initialSession.nextId c9Content,
         Msg.status (initialSession.nextId + 1) c9Content] :=
  claim9_status_no_dedup initialSession c9Line c9Content (by decide) (by decide)

/-- C10: differential recognition fires only on lines containing one of the
two literal marker substrings; a line holding the TOP phrase preceded by 📊
rather than U+FFFD leaves the snapshot unchanged. -/
theorem claim10_marker_exactness :
    (∀ (s : SessionState) (line : Str),
      (processLine s line).differential ≠ s.differential →
      ∃ c, extractContent line = some c ∧
        (containsSub c dxMarker1 = true ∨ containsSub c dxMarker2 = true)) ∧
    containsSub c10Content topPhrase = true ∧
    containsSub c10Content dxMarker1 = false ∧
    extractContent c10Line = some c10Content ∧
    (processLine initialSession c10Line).differential = none := by
  refine ⟨?_, by decide, by decide, by decide, by decide⟩
  intro s line hne
  rcases he : extractContent line with _ | c
  · exact absurd (by rw [processLine_of_none he]) hne
  · refine ⟨c, rfl, ?_⟩
    by_contra hno
    push_neg at hno
    have h1 : containsSub c dxMarker1 = false := by
      cases hb : containsSub c dxMarker1
      · rfl
      · exact absurd hb hno.1
    have h2 : containsSub c dxMarker2 = false := by
      cases hb : containsSub c dxMarker2
      · rfl
      · exact absurd hb hno.2
    have hrec : recognizesDx c = false := by
      unfold recognizesDx
      rw [h1, h2]
      rfl
    exact hne (by
      rw [processLine_of_extract he, processRest_differential,
        applyDx_neg (Or.inl hrec)])

/-- Witness for C10's universal part: the recognised line `c7Line` does
change the snapshot, so it must contain a marker. -/
theorem claim10_marker_exactness_witness :
    ∃ c, extractContent c7Line = some c ∧
      (containsSub c dxMarker1 = true ∨ containsSub c dxMarker2 = true) :=
  claim10_marker_exactness.1 initialSession c7Line (by decide)

end SeqDiag
